import Mathlib

/-!
Verification development for a backtracking regular-expression engine
(pattern parser, Thompson-style NFA builder, backtracking executor).
The Python sources (regex/parser.py, regex/finite_automata.py, regex/regex.py)
are shallowly embedded below: strings are lists of characters, Python dicts
are association lists, exceptions are `Except` errors, and the unbounded
while-loops of the executor and the recursive-descent parser are given
explicit fuel.
-/

namespace RegexEngine

/-- The apostrophe character.  `Literal.item` wraps the literal character in
a pair of these quotes, and `NFABuilder.visit_literal` passes that wrapped
string to `CharacterMatcher`. -/
def quoteChar : Char := Char.ofNat 39

/-- The backslash character. -/
def backslashChar : Char := Char.ofNat 92

/-- The opening-brace character (a member of `GLOBAL_METACHARS`). -/
def lbraceChar : Char := Char.ofNat 123

/-- Python lexicographic string comparison `a <= b`, used by
`RangeMatcher.match` (`self.start <= input[i] <= self.end`). -/
def pyStrLe : List Char → List Char → Bool
  | [], _ => true
  | _ :: _, [] => false
  | a :: as, b :: bs => if a = b then pyStrLe as bs else decide (a < b)

/-- Runtime errors the executor can raise (modelling Python exceptions
raised during `NFA._search` / `NFA.finditer`). -/
inductive RunErr where
  | keyError
  | typeError
  deriving DecidableEq, Repr

/-- Capture record `_Match` from finite_automata.py: `start` is set when the
group opens; `end` and `substr` are `None` until the closing transition
fires. -/
structure MRec where
  start : Nat
  endIdx : Option Nat
  substr : Option (List Char)
  deriving DecidableEq, Repr

/-- The capture map (Python `dict[int, _Match]`), as an association list. -/
abbrev Groups := List (Nat × MRec)

/-- Dict lookup `groups[k]` returning `none` when the key is absent. -/
def gGet? (g : Groups) (k : Nat) : Option MRec :=
  (List.find? (fun p => p.1 = k) g).map (fun p => p.2)

/-- Dict assignment `groups[k] = v` (replace the binding if present,
otherwise add it). -/
def gSet (g : Groups) (k : Nat) (v : MRec) : Groups :=
  match g with
  | [] => [(k, v)]
  | p :: rest => if p.1 = k then (k, v) :: rest else p :: gSet rest k v

/-- Matcher primitives from finite_automata.py.  `character` and `range`
carry whole strings because `NFABuilder.visit_literal` passes `node.item()`
(the quote-wrapped printing form) to `CharacterMatcher`, and
`RegexParser._parse_set_items` builds `Range` from `lhs.item()`. -/
inductive Matcher where
  | character (c : List Char)
  | epsilonM
  | range (lo hi : List Char)
  | backreference (ref : Nat)
  | inverse (m : Matcher)
  deriving DecidableEq, Repr

/-- `Matcher.match(input, i, groups)`.  For `BackReferenceMatcher` with a
recorded but unclosed group (substr is `None`), `len(None)` raises, modelled
as `typeError`. -/
def Matcher.matchAt : Matcher → List Char → Nat → Groups → Except RunErr Bool
  | .character c, s, i, _ => .ok (decide (i < s.length) && decide ((s.drop i).take 1 = c))
  | .epsilonM, _, _, _ => .ok true
  | .range lo hi, s, i, _ =>
      .ok (decide (i < s.length) && (pyStrLe lo ((s.drop i).take 1) && pyStrLe ((s.drop i).take 1) hi))
  | .backreference ref, s, i, g =>
      match gGet? g ref with
      | none => .ok true
      | some rec =>
        match rec.substr with
        | none => .error .typeError
        | some sub => .ok (decide ((s.drop i).take sub.length = sub))
  | .inverse m, s, i, g => do
      let b ← m.matchAt s i g
      .ok (!b)

/-- `Matcher.is_epsilon(groups)`.  `BackReferenceMatcher.is_epsilon` indexes
`groups[self.reference]` with no guard, so an absent group raises `KeyError`;
`None == ""` is `False` in Python, so an unclosed substr yields `false`. -/
def Matcher.isEpsilonAt : Matcher → Option Groups → Except RunErr Bool
  | .character _, _ => .ok false
  | .epsilonM, _ => .ok true
  | .range _ _, _ => .ok false
  | .backreference _, none => .ok true
  | .backreference ref, some g =>
      match gGet? g ref with
      | none => .error .keyError
      | some rec => .ok (decide (rec.substr = some []))
  | .inverse _, _ => .ok false

/-- `Matcher.num_consumed(groups)`.  `BackReferenceMatcher.num_consumed`
indexes the capture map with no guard (`KeyError` when absent, `TypeError`
for `len(None)`). -/
def Matcher.numConsumed : Matcher → Groups → Except RunErr Nat
  | .character _, _ => .ok 1
  | .epsilonM, _ => .ok 0
  | .range _ _, _ => .ok 1
  | .backreference ref, g =>
      match gGet? g ref with
      | none => .error .keyError
      | some rec =>
        match rec.substr with
        | none => .error .typeError
        | some sub => .ok sub.length
  | .inverse _, _ => .ok 1

/-- A labeled NFA edge (`Transition` dataclass); the target is a state id. -/
structure Transition where
  matchSymbol : Matcher
  target : Nat
  startGroup : Option Nat
  endGroup : Option Nat
  deriving DecidableEq, Repr

/-- The NFA: states are numbered in creation order (`q0`, `q1`, ... become
indices 0, 1, ...), each holding its outgoing transitions in insertion
order. -/
structure NFA where
  states : List (List Transition)
  startState : Nat
  endStates : List Nat
  deriving DecidableEq, Repr

/-- A backtracking frame (`TraversalState`): match start, input cursor
(source field `end`), current state, the epsilon-cycle set and the capture
map. -/
structure Frame where
  start : Nat
  cursor : Nat
  state : Nat
  cycle : List Nat
  groups : Groups
  deriving DecidableEq, Repr

/-- A match result (`Match`): just the capture map. -/
structure MatchRes where
  groups : Groups
  deriving DecidableEq, Repr

/-- Group bookkeeping done on the freshly pushed frame: `start_group` records
`_Match(new_cursor)`; `end_group` sets `end`/`substr` on the existing record
(raising `KeyError` when it is absent). -/
def applyGroupOps (t : Transition) (g : Groups) (newCursor : Nat) (s : List Char) :
    Except RunErr Groups :=
  match t.startGroup with
  | some k => .ok (gSet g k ⟨newCursor, none, none⟩)
  | none =>
    match t.endGroup with
    | some k =>
      match gGet? g k with
      | none => .error .keyError
      | some rec =>
          .ok (gSet g k ⟨rec.start, some newCursor, some ((s.drop rec.start).take (newCursor - rec.start))⟩)
    | none => .ok g

/-- One iteration of the transition loop in `NFA._search`, over the given
transition list (the caller passes the reversed insertion order, matching
`State.__iter__`).  Produces the frames in that iteration order. -/
def expandGo (s : List Char) (f : Frame) : List Transition → Except RunErr (List Frame)
  | [] => .ok []
  | t :: ts => do
    let b ← t.matchSymbol.matchAt s f.cursor f.groups
    if b then do
      let e1 ← t.matchSymbol.isEpsilonAt (some f.groups)
      if e1 && decide (f.state ∈ f.cycle) then
        expandGo s f ts
      else do
        let n ← t.matchSymbol.numConsumed f.groups
        let newCursor := f.cursor + n
        let g1 ← applyGroupOps t f.groups newCursor s
        let rest ← expandGo s f ts
        .ok (⟨f.start, newCursor, t.target, if e1 then f.cycle.insert f.state else [], g1⟩ :: rest)
    else expandGo s f ts

/-- Expanding one popped frame: iterate the state's transitions in reverse
insertion order, appending each new frame to the stack.  In the
head-is-top-of-stack representation used here the resulting segment is the
frames in insertion order (first-inserted on top, popped first). -/
def expand (nfa : NFA) (s : List Char) (f : Frame) : Except RunErr (List Frame) := do
  let fs ← expandGo s f ((nfa.states.getD f.state []).reverse)
  .ok fs.reverse

/-- Result of the `_search` while-loop: a match, stack exhaustion (with the
fuel that was left, for bookkeeping), or fuel exhaustion. -/
inductive SearchOut where
  | found (m : MatchRes)
  | noMatch (fuelLeft : Nat)
  | fuelOut
  deriving DecidableEq, Repr

/-- The `NFA._search` while-loop.  The head of the list is the top of the
LIFO stack; each loop iteration consumes one unit of fuel.  A popped frame at
an accepting state returns its captures immediately. -/
def runSearch (nfa : NFA) (s : List Char) : Nat → List Frame → Except RunErr SearchOut
  | fuel, [] => .ok (.noMatch fuel)
  | 0, _ :: _ => .ok .fuelOut
  | fuel + 1, f :: rest =>
    if f.state ∈ nfa.endStates then .ok (.found ⟨f.groups⟩)
    else do
      let pushed ← expand nfa s f
      runSearch nfa s fuel (pushed ++ rest)

/-- `NFA._search(s, start)`: run the stack loop from a single initial frame. -/
def searchAt (nfa : NFA) (s : List Char) (F start : Nat) : Except RunErr SearchOut :=
  runSearch nfa s F [⟨start, start, nfa.startState, [], []⟩]

/-- Result of `NFA.search`: first match of the scan, or no match anywhere,
or inner fuel exhaustion. -/
inductive SRes where
  | found (m : MatchRes)
  | noMatch
  | fuelOut
  deriving DecidableEq, Repr

/-- The scan loop of `NFA.search(s, start)` (`for i in range(start, len(s)+1)`),
written with an explicit countdown of remaining indices. -/
def searchGo (nfa : NFA) (s : List Char) (F : Nat) : Nat → Nat → Except RunErr SRes
  | 0, _ => .ok .noMatch
  | n + 1, i => do
    let r ← runSearch nfa s F [⟨i, i, nfa.startState, [], []⟩]
    match r with
    | .found m => .ok (.found m)
    | .noMatch _ => searchGo nfa s F n (i + 1)
    | .fuelOut => .ok .fuelOut

/-- `NFA.search(s, start)`. -/
def searchFrom (nfa : NFA) (s : List Char) (F start : Nat) : Except RunErr SRes :=
  searchGo nfa s F (s.length + 1 - start) start

/-- Result of `NFA.finditer`: the yielded matches, or fuel exhaustion of the
outer loop or of an inner search. -/
inductive IterOut where
  | complete (ms : List MatchRes)
  | fuelOut
  | innerFuelOut
  deriving DecidableEq, Repr

/-- The `NFA.finditer` generator loop: search from the cursor, yield, move
the cursor to the match end, one further if the match was empty, and stop
once the cursor passes the end of the input.  `m.end()` on a match without a
closed group 0 raises (`KeyError`/comparison with `None`). -/
def finditerGo (nfa : NFA) (s : List Char) (F : Nat) : Nat → Nat → Except RunErr IterOut
  | 0, _ => .ok .fuelOut
  | ofuel + 1, cur => do
    let r ← searchFrom nfa s F cur
    match r with
    | .noMatch => .ok (.complete [])
    | .fuelOut => .ok .innerFuelOut
    | .found m =>
      match gGet? m.groups 0 with
      | none => .error .keyError
      | some rec =>
        match rec.endIdx with
        | none => .error .typeError
        | some e =>
          let cur1 := if e = rec.start then e + 1 else e
          if s.length < cur1 then .ok (.complete [m])
          else do
            let r2 ← finditerGo nfa s F ofuel cur1
            match r2 with
            | .complete ms => .ok (.complete (m :: ms))
            | out => .ok out

/-- The regex AST (parser.py).  `group` carries the group number assigned on
entry to `(`.  `range` carries the strings handed to the `Range` constructor
(the set parser passes `lhs.item()`, the escape tables pass one-character
strings). -/
inductive AST where
  | epsilon
  | lit (c : Char)
  | backref (k : Nat)
  | seq (a b : AST)
  | orN (a b : AST)
  | star (a : AST)
  | plus (a : AST)
  | group (a : AST) (num : Nat)
  | range (c1 c2 : List Char)
  | dot
  | startAnchor
  | endAnchor
  deriving DecidableEq, Repr

/-- `AST.item()`: the printing form of a node.  `Literal.item` wraps the
character in apostrophes; the set parser feeds these strings into `Range`. -/
def AST.itemStr : AST → List Char
  | .epsilon => ['e']
  | .lit c => [quoteChar, c, quoteChar]
  | .backref k => [backslashChar, backslashChar] ++ (toString k).data
  | .seq _ _ => ['-', '>']
  | .orN _ _ => ['|']
  | .star _ => ['*']
  | .plus _ => ['+']
  | .group _ k => ['('] ++ (toString k).data ++ [')']
  | .range c1 c2 => c1 ++ ['-'] ++ c2
  | .dot => ['.']
  | .startAnchor => ['^']
  | .endAnchor => ['$']

/-- Parser errors: `ParserError` messages, `NotImplementedError` from
`_parse_escape`, `StopIteration` from `next` on an exhausted iterator, the
`None` fallthrough returns of `_parse_escape`/`_parse_quantifier`, and fuel
exhaustion of the embedded recursion. -/
inductive PErr where
  | err (msg : String)
  | notImplemented
  | stopIteration
  | noneReturn
  | fuelOut
  deriving DecidableEq, Repr

/-- `GroupManager`: the next group number and the set of closed groups. -/
structure GM where
  nextGroup : Nat
  finished : List Nat
  deriving DecidableEq, Repr

/-- `GLOBAL_METACHARS` (metacharacters outside sets). -/
def globalMetachars : List Char :=
  [backslashChar, '^', '$', '[', '.', '|', '(', ')', '?', '*', '+', lbraceChar]

/-- `SET_METACHARS` (metacharacters inside sets). -/
def setMetachars : List Char :=
  [backslashChar, '^', '-', '[', ']']

/-- `CHAR_ESCAPE_SEQS`: control-character escapes. -/
def charEscapeSeq : Char → Option Char
  | 'a' => some (Char.ofNat 7)
  | 'e' => some (Char.ofNat 30)
  | 'f' => some (Char.ofNat 12)
  | 'n' => some (Char.ofNat 10)
  | 'r' => some (Char.ofNat 13)
  | 't' => some (Char.ofNat 9)
  | _ => none

/-- `ESCAPE_GROUPS`: canonical alternation trees for `\w \d \v \h \s`
(these `Range`/`Literal` nodes are built directly with one-character
strings). -/
def escapeGroup : Char → Option AST
  | 'w' => some (.orN (.range ['a'] ['z'])
            (.orN (.range ['A'] ['Z'])
              (.orN (.range ['0'] ['9'])
                (.lit '_'))))
  | 'd' => some (.range ['0'] ['9'])
  | 'v' => some (.orN (.lit (Char.ofNat 10))
            (.orN (.lit (Char.ofNat 11))
              (.orN (.lit (Char.ofNat 12))
                (.orN (.lit (Char.ofNat 13))
                  (.lit (Char.ofNat 133))))))
  | 'h' => some (.orN (.lit (Char.ofNat 9))
            (.orN (.lit ' ')
              (.lit (Char.ofNat 160))))
  | 's' => some (.orN
            (.orN (.lit (Char.ofNat 10))
              (.orN (.lit (Char.ofNat 11))
                (.orN (.lit (Char.ofNat 12))
                  (.orN (.lit (Char.ofNat 13))
                    (.lit (Char.ofNat 133))))))
            (.orN (.lit (Char.ofNat 9))
              (.orN (.lit ' ')
                (.lit (Char.ofNat 160)))))
  | _ => none

/-- Python `str.isalnum` restricted to the ASCII patterns this grammar
uses. -/
def pyIsAlnum (c : Char) : Bool := c.isAlpha || c.isDigit

/-- `RegexParser._parse_digit(max_digits)`.  The source keeps a `counter`
that is compared against `max_digits` but never incremented, so every
consecutive digit is consumed; the constant counter is reproduced
faithfully. -/
def parseDigitRun (maxDigits : Option Nat) (counter : Nat) :
    List Char → List Char × List Char
  | [] => ([], [])
  | c :: rest =>
    if (match maxDigits with | none => true | some md => decide (counter < md)) && c.isDigit then
      let (ds, rem) := parseDigitRun maxDigits counter rest
      (c :: ds, rem)
    else ([], c :: rest)

/-- `int` on a digit string. -/
def digitsToNat (ds : List Char) : Nat :=
  ds.foldl (fun n c => n * 10 + (c.toNat - 48)) 0

/-- `RegexParser._expect`: peek must be one of the given characters. -/
def pExpect (cs : List Char) (inp : List Char) : Except PErr Unit :=
  match inp.head? with
  | some c => if c ∈ cs then .ok () else .error (.err "Expected one of")
  | none => .error (.err "Expected one of")

/-- `RegexParser._parse_literal(metachars)`: empty input yields `Epsilon`; a
backslash must be followed by a metachar of the current context; otherwise
the next character is taken literally. -/
def parseLiteral (metachars : List Char) (inp : List Char) :
    Except PErr (AST × List Char) :=
  match inp with
  | [] => .ok (.epsilon, [])
  | c :: rest =>
    if c = backslashChar then
      match rest with
      | [] => .error (.err "Meaningless escaped char")
      | d :: rest2 =>
        if d ∈ metachars then .ok (.lit d, rest2)
        else .error (.err "Meaningless escaped char")
    else .ok (.lit c, rest)

/-- `RegexParser._parse_escape`.  A digit run is a back-reference only when
the group is closed: numbers 1-9 that are not closed raise `ParserError`,
other unknown numbers raise `NotImplementedError`.  A trailing backslash
raises `StopIteration`; an alphanumeric escape not in any table falls off
the end of the function (Python returns `None`). -/
def parseEscape (inp : List Char) (gm : GM) : Except PErr (AST × List Char) :=
  match inp with
  | [] => .error .stopIteration
  | _ :: rest =>
    match rest with
    | [] => .error .stopIteration
    | c :: rest2 =>
      if ¬ pyIsAlnum c then .ok (.lit c, rest2)
      else if c.isDigit then
        let (ds, rem) := parseDigitRun (some 3) 0 rest
        let num := digitsToNat ds
        if (1 ≤ num ∧ num ≤ 9) ∨ num ∈ gm.finished then
          if num ∈ gm.finished then .ok (.backref num, rem)
          else .error (.err "Invalid reference to group")
        else .error .notImplemented
      else
        match charEscapeSeq c with
        | some mapped => .ok (.lit mapped, rest2)
        | none =>
          match escapeGroup c with
          | some t => .ok (t, rest2)
          | none => .error .noneReturn

/-- `RegexParser._parse_quantifier`: `*` and `+` wrap the atom; `?` is in
`QUANTIFIERS` but has no branch (Python returns `None`). -/
def parseQuantifier (atom : AST) (inp : List Char) : Except PErr (AST × List Char) :=
  match inp with
  | [] => .ok (atom, inp)
  | c :: rest =>
    if c = '*' then .ok (.star atom, rest)
    else if c = '+' then .ok (.plus atom, rest)
    else if c = '?' then .error .noneReturn
    else .ok (atom, inp)

mutual

/-- `RegexParser._parse_expr`: a term, optionally `| expr`
(right-associative alternation). -/
def parseExpr : Nat → List Char → GM → Except PErr (AST × List Char × GM)
  | 0, _, _ => .error .fuelOut
  | fu + 1, inp, gm => do
    let (lhs, inp1, gm1) ← parseTerm fu inp gm
    match inp1 with
    | c :: rest =>
      if c = '|' then do
        let (rhs, inp2, gm2) ← parseExpr fu rest gm1
        .ok (.orN lhs rhs, inp2, gm2)
      else .ok (lhs, inp1, gm1)
    | [] => .ok (lhs, inp1, gm1)

/-- `RegexParser._parse_term`: an atom, then another term unless at EOF,
`)` or `|`. -/
def parseTerm : Nat → List Char → GM → Except PErr (AST × List Char × GM)
  | 0, _, _ => .error .fuelOut
  | fu + 1, inp, gm => do
    let (lhs, inp1, gm1) ← parseAtom fu inp gm
    match inp1.head? with
    | none => .ok (lhs, inp1, gm1)
    | some c =>
      if c = ')' ∨ c = '|' then .ok (lhs, inp1, gm1)
      else do
        let (rhs, inp2, gm2) ← parseTerm fu inp1 gm1
        .ok (.seq lhs rhs, inp2, gm2)

/-- `RegexParser._parse_atom`: group, dot, set, anchor (returned without a
quantifier), epsilon on `|`/`)` (no input consumed), escape or literal;
every branch except anchors and epsilon then parses an optional
quantifier. -/
def parseAtom : Nat → List Char → GM → Except PErr (AST × List Char × GM)
  | 0, _, _ => .error .fuelOut
  | fu + 1, inp, gm =>
    match inp.head? with
    | some c =>
      if c = '(' then do
        let (a, i1, g1) ← parseGroup fu inp gm
        let (a2, i2) ← parseQuantifier a i1
        .ok (a2, i2, g1)
      else if c = '.' then do
        let (a2, i2) ← parseQuantifier .dot inp.tail
        .ok (a2, i2, gm)
      else if c = '[' then do
        let (a, i1, g1) ← parseSet fu inp gm
        let (a2, i2) ← parseQuantifier a i1
        .ok (a2, i2, g1)
      else if c = '^' then .ok (.startAnchor, inp.tail, gm)
      else if c = '$' then .ok (.endAnchor, inp.tail, gm)
      else if c = '|' ∨ c = ')' then .ok (.epsilon, inp, gm)
      else if c = backslashChar then do
        let (a, i1) ← parseEscape inp gm
        let (a2, i2) ← parseQuantifier a i1
        .ok (a2, i2, gm)
      else do
        let (a, i1) ← parseLiteral globalMetachars inp
        let (a2, i2) ← parseQuantifier a i1
        .ok (a2, i2, gm)
    | none => do
      let (a, i1) ← parseLiteral globalMetachars inp
      let (a2, i2) ← parseQuantifier a i1
      .ok (a2, i2, gm)

/-- `RegexParser._parse_group`: the group number is taken on entry to `(`;
the group is marked finished after its `)` is consumed. -/
def parseGroup : Nat → List Char → GM → Except PErr (AST × List Char × GM)
  | 0, _, _ => .error .fuelOut
  | fu + 1, inp, gm => do
    let groupno := gm.nextGroup
    let gm1 : GM := ⟨gm.nextGroup + 1, gm.finished⟩
    pExpect ['('] inp
    let (inner, i1, g1) ← parseExpr fu inp.tail gm1
    pExpect [')'] i1
    .ok (.group inner groupno, i1.tail, ⟨g1.nextGroup, groupno :: g1.finished⟩)

/-- `RegexParser._parse_set`: `[` items `]`. -/
def parseSet : Nat → List Char → GM → Except PErr (AST × List Char × GM)
  | 0, _, _ => .error .fuelOut
  | fu + 1, inp, gm => do
    pExpect ['['] inp
    let (items, i1, g1) ← parseSetItems fu inp.tail gm
    pExpect [']'] i1
    .ok (items, i1.tail, g1)

/-- `RegexParser._parse_set_items`: a set literal, made into a `Range` (via
`item()`) when a `-` follows and the two characters ahead are not `-]`;
remaining items are folded with `Or`. -/
def parseSetItems : Nat → List Char → GM → Except PErr (AST × List Char × GM)
  | 0, _, _ => .error .fuelOut
  | fu + 1, inp, gm => do
    let (lhs0, i1) ← parseLiteral setMetachars inp
    let (lhs, i2) ←
      if i1.head? = some '-' ∧ i1.take 2 ≠ ['-', ']'] then do
        let (r, i2) ← parseLiteral setMetachars i1.tail
        Except.ok (AST.range lhs0.itemStr r.itemStr, i2)
      else Except.ok (lhs0, i1)
    if i2.head? = some ']' then .ok (lhs, i2, gm)
    else do
      let (rest, i3, g3) ← parseSetItems fu i2 gm
      .ok (.orN lhs rest, i3, g3)

end

/-- `RegexParser.parse` / module-level `parse`: parse an expression, reject
leftover input, and wrap the AST in group 0. -/
def parseRegex (fu : Nat) (pattern : String) : Except PErr AST := do
  let (ast, rem, _) ← parseExpr fu pattern.data ⟨1, []⟩
  match rem with
  | [] => .ok (.group ast 0)
  | c :: _ =>
    if c = ')' then .error (.err "Unmatched parentheses")
    else .error (.err "Unknown error in consuming entire input")

/-- Builder errors: `AttributeError` (the visitor has no `visit_dot`,
`visit_start_anchor` or `visit_end_anchor` method) and the `assert` in
`NFA.add_transition`. -/
inductive BErr where
  | attributeError
  | assertionError
  deriving DecidableEq, Repr

/-- The NFA under construction: the per-state transition lists, in state
creation order. -/
abbrev BSt := List (List Transition)

/-- `NFA.add_state`: the new state's id is the current number of states. -/
def bAdd (st : BSt) : BSt × Nat := (st ++ [[]], st.length)

/-- `NFA.add_transition`: assert both endpoints exist, then append the
transition to the source state's list. -/
def bAddTrans (st : BSt) (fr dst : Nat) (m : Matcher) (sg eg : Option Nat) :
    Except BErr BSt :=
  if fr < st.length ∧ dst < st.length then
    .ok (st.set fr ((st.getD fr []) ++ [⟨m, dst, sg, eg⟩]))
  else .error .assertionError

/-- `NFABuilder`'s visit methods: each AST node yields an (entry, exit) pair
of state ids.  `visit_literal` passes `node.item()` — the quote-wrapped
printing form — to `CharacterMatcher`; `visit_range` passes the raw `Range`
fields.  `Dot`, `StartAnchor` and `EndAnchor` have no visit method
(`AttributeError`). -/
def buildAST : AST → BSt → Except BErr (BSt × Nat × Nat)
  | .lit c, st => do
    let (st1, s1) := bAdd st
    let (st2, s2) := bAdd st1
    let st3 ← bAddTrans st2 s1 s2 (.character (AST.itemStr (.lit c))) none none
    .ok (st3, s1, s2)
  | .epsilon, st => do
    let (st1, s1) := bAdd st
    .ok (st1, s1, s1)
  | .seq a b, st => do
    let (stA, l1, l2) ← buildAST a st
    let (stB, r1, r2) ← buildAST b stA
    let st1 ← bAddTrans stB l2 r1 .epsilonM none none
    .ok (st1, l1, r2)
  | .orN a b, st => do
    let (st1, s1) := bAdd st
    let (st2, s2) := bAdd st1
    let (stA, l1, l2) ← buildAST a st2
    let (stB, r1, r2) ← buildAST b stA
    let u1 ← bAddTrans stB s1 l1 .epsilonM none none
    let u2 ← bAddTrans u1 s1 r1 .epsilonM none none
    let u3 ← bAddTrans u2 l2 s2 .epsilonM none none
    let u4 ← bAddTrans u3 r2 s2 .epsilonM none none
    .ok (u4, s1, s2)
  | .star a, st => do
    let (st1, s1) := bAdd st
    let (st2, s2) := bAdd st1
    let (stA, l1, l2) ← buildAST a st2
    let u1 ← bAddTrans stA s1 l1 .epsilonM none none
    let u2 ← bAddTrans u1 s1 s2 .epsilonM none none
    let u3 ← bAddTrans u2 l2 l1 .epsilonM none none
    let u4 ← bAddTrans u3 l2 s2 .epsilonM none none
    .ok (u4, s1, s2)
  | .plus a, st => do
    let (st1, s1) := bAdd st
    let (st2, s2) := bAdd st1
    let (stA, l1, l2) ← buildAST a st2
    let u1 ← bAddTrans stA s1 l1 .epsilonM none none
    let u2 ← bAddTrans u1 l2 l1 .epsilonM none none
    let u3 ← bAddTrans u2 l2 s2 .epsilonM none none
    .ok (u3, s1, s2)
  | .group a k, st => do
    let (st1, s1) := bAdd st
    let (st2, s2) := bAdd st1
    let (stA, l1, l2) ← buildAST a st2
    let u1 ← bAddTrans stA s1 l1 .epsilonM (some k) none
    let u2 ← bAddTrans u1 l2 s2 .epsilonM none (some k)
    .ok (u2, s1, s2)
  | .range c1 c2, st => do
    let (st1, s1) := bAdd st
    let (st2, s2) := bAdd st1
    let st3 ← bAddTrans st2 s1 s2 (.range c1 c2) none none
    .ok (st3, s1, s2)
  | .backref k, st => do
    let (st1, s1) := bAdd st
    let (st2, s2) := bAdd st1
    let st3 ← bAddTrans st2 s1 s2 (.backreference k) none none
    .ok (st3, s1, s2)
  | .dot, _ => .error .attributeError
  | .startAnchor, _ => .error .attributeError
  | .endAnchor, _ => .error .attributeError

/-- `Regex.build_nfa` followed by `NFABuilder.get_nfa`: the start state is
the top-level entry and the single accepting state the top-level exit.  The
optimizer invoked with the default `"O0"` level returns the NFA unchanged. -/
def compileAST (t : AST) : Except BErr NFA := do
  let (st, s, e) ← buildAST t []
  .ok ⟨st, s, [e]⟩

/-- Errors of the whole `Regex(pattern)` + matching pipeline. -/
inductive TopErr where
  | parse (e : PErr)
  | build (e : BErr)
  | run (e : RunErr)
  deriving DecidableEq, Repr

/-- `Regex.__init__`: parse the pattern and build (and trivially optimize)
the NFA. -/
def compileRegex (fu : Nat) (pattern : String) : Except TopErr NFA :=
  match parseRegex fu pattern with
  | .error e => .error (.parse e)
  | .ok t =>
    match compileAST t with
    | .error e => .error (.build e)
    | .ok nfa => .ok nfa

/-- Whether an `Except` is a success. -/
def eIsOk {ε α : Type} (e : Except ε α) : Bool :=
  match e with
  | .ok _ => true
  | .error _ => false

/-- `Regex(pattern).match(input)` (`NFA._search(s, 0)`), with parser fuel
`fu` and executor fuel `F`. -/
def runMatch (fu F : Nat) (pattern input : String) : Except TopErr SearchOut :=
  match compileRegex fu pattern with
  | .error e => .error e
  | .ok nfa =>
    match runSearch nfa input.data F [⟨0, 0, nfa.startState, [], []⟩] with
    | .error e => .error (.run e)
    | .ok r => .ok r

/-- Observable outcome of a `match` call: a match object, `None`, or fuel
exhaustion of the embedding. -/
inductive Outcome where
  | matched (m : MatchRes)
  | noMatch
  | fuelOut
  deriving DecidableEq, Repr

/-- Collapse a `SearchOut` to its observable outcome. -/
def SearchOut.toOutcome : SearchOut → Outcome
  | .found m => .matched m
  | .noMatch _ => .noMatch
  | .fuelOut => .fuelOut

/-- `Regex(pattern).match(input)` reduced to its observable outcome. -/
def runMatchO (fu F : Nat) (pattern input : String) : Except TopErr Outcome :=
  (runMatch fu F pattern input).map SearchOut.toOutcome

/-- `Match.group(0)` of an outcome: the recorded substring of group 0. -/
def Outcome.group0 : Outcome → Option (List Char)
  | .matched m => (gGet? m.groups 0).bind (fun r => r.substr)
  | _ => none

/-- Whether the outcome is a match recording the given group. -/
def Outcome.hasGroup : Outcome → Nat → Bool
  | .matched m, k => (gGet? m.groups k).isSome
  | _, _ => false

/-- Whether the outcome is a match at all. -/
def Outcome.isMatched : Outcome → Bool
  | .matched _ => true
  | _ => false

/-- `AST` contains a `Dot` node. -/
def astHasDot : AST → Bool
  | .dot => true
  | .seq a b => astHasDot a || astHasDot b
  | .orN a b => astHasDot a || astHasDot b
  | .star a => astHasDot a
  | .plus a => astHasDot a
  | .group a _ => astHasDot a
  | _ => false

/-- `AST` contains a `StartAnchor` or `EndAnchor` node. -/
def astHasAnchor : AST → Bool
  | .startAnchor => true
  | .endAnchor => true
  | .seq a b => astHasAnchor a || astHasAnchor b
  | .orN a b => astHasAnchor a || astHasAnchor b
  | .star a => astHasAnchor a
  | .plus a => astHasAnchor a
  | .group a _ => astHasAnchor a
  | _ => false

/-- `AST` contains a node with no visit method in `NFABuilder` (`Dot` or an
anchor). -/
def astHasNoVisit : AST → Bool
  | .dot => true
  | .startAnchor => true
  | .endAnchor => true
  | .seq a b => astHasNoVisit a || astHasNoVisit b
  | .orN a b => astHasNoVisit a || astHasNoVisit b
  | .star a => astHasNoVisit a
  | .plus a => astHasNoVisit a
  | .group a _ => astHasNoVisit a
  | _ => false

/-- Unfolding the `Except` monad bind on a success. -/
@[simp] theorem exceptBind_ok {ε α β : Type} (a : α) (f : α → Except ε β) :
    (Except.ok a : Except ε α) >>= f = f a := rfl

/-- Unfolding the `Except` monad bind on an error. -/
@[simp] theorem exceptBind_error {ε α β : Type} (e : ε) (f : α → Except ε β) :
    (Except.error e : Except ε α) >>= f = Except.error e := rfl

/-- Unfolding `Except.bind` on a success. -/
@[simp] theorem exceptBindM_ok {ε α β : Type} (a : α) (f : α → Except ε β) :
    Except.bind (Except.ok a : Except ε α) f = f a := rfl

/-- Unfolding `Except.bind` on an error. -/
@[simp] theorem exceptBindM_error {ε α β : Type} (e : ε) (f : α → Except ε β) :
    Except.bind (Except.error e : Except ε α) f = Except.error e := rfl

/-- `getD` after `set` at a different index. -/
theorem getD_set_ne {α : Type} (l : List α) (i j : Nat) (v d : α) (hij : i ≠ j) :
    (l.set i v).getD j d = l.getD j d := by
  induction l generalizing i j with
  | nil => simp [List.set]
  | cons a rest ih =>
    cases i with
    | zero =>
      cases j with
      | zero => exact absurd rfl hij
      | succ j => simp [List.set, List.getD]
    | succ i =>
      cases j with
      | zero => simp [List.set, List.getD]
      | succ j =>
        simp only [List.set, List.getD_cons_succ]
        exact ih i j (fun h => hij (by rw [h]))

/-- `getD` after `set` at the same (in-bounds) index. -/
theorem getD_set_self {α : Type} (l : List α) (i : Nat) (v d : α) (hi : i < l.length) :
    (l.set i v).getD i d = v := by
  induction l generalizing i with
  | nil => simp at hi
  | cons a rest ih =>
    cases i with
    | zero => simp [List.set, List.getD]
    | succ i =>
      simp only [List.set, List.getD_cons_succ]
      exact ih i (by simpa using hi)

/-- Setting an index preserves the length. -/
theorem length_set_eq {α : Type} (l : List α) (i : Nat) (v : α) :
    (l.set i v).length = l.length := by
  simp

/-- Unfolding `runSearch` on the empty stack. -/
theorem runSearch_nil (nfa : NFA) (s : List Char) (fuel : Nat) :
    runSearch nfa s fuel [] = .ok (.noMatch fuel) := by
  cases fuel <;> rfl

/-- Unfolding `runSearch` at zero fuel on a nonempty stack. -/
theorem runSearch_zero_cons (nfa : NFA) (s : List Char) (f : Frame) (rest : List Frame) :
    runSearch nfa s 0 (f :: rest) = .ok .fuelOut := rfl

/-- Unfolding one iteration of `runSearch`. -/
theorem runSearch_succ_cons (nfa : NFA) (s : List Char) (fu : Nat) (f : Frame)
    (rest : List Frame) :
    runSearch nfa s (fu + 1) (f :: rest) =
      if f.state ∈ nfa.endStates then .ok (.found ⟨f.groups⟩)
      else (expand nfa s f).bind (fun pushed => runSearch nfa s fu (pushed ++ rest)) := rfl

/-- Exploration order of the `_search` stack loop: whatever the top segment
of the stack does on its own, the whole stack does first.  In particular a
match found while exploring only the top segment is the match returned for
the whole stack. -/
theorem runSearch_append_found (nfa : NFA) (s : List Char) :
    ∀ fuel s1 s2 m, runSearch nfa s fuel s1 = .ok (.found m) →
      runSearch nfa s fuel (s1 ++ s2) = .ok (.found m) := by
  intro fuel
  induction fuel with
  | zero =>
    intro s1 s2 m h
    cases s1 with
    | nil => rw [runSearch_nil] at h; exact absurd h (by simp)
    | cons f rest => rw [runSearch_zero_cons] at h; exact absurd h (by simp)
  | succ fu ih =>
    intro s1 s2 m h
    cases s1 with
    | nil => rw [runSearch_nil] at h; exact absurd h (by simp)
    | cons f rest =>
      rw [List.cons_append]
      rw [runSearch_succ_cons] at h ⊢
      by_cases hacc : f.state ∈ nfa.endStates
      · rw [if_pos hacc] at h ⊢
        exact h
      · rw [if_neg hacc] at h ⊢
        cases hexp : expand nfa s f with
        | error e => rw [hexp] at h; exact absurd h (by simp)
        | ok pushed =>
          rw [hexp] at h
          simp only [exceptBindM_ok] at h ⊢
          rw [← List.append_assoc]
          exact ih (pushed ++ rest) s2 m h

/-- An AST containing a node with no visit method (`Dot`, `StartAnchor`,
`EndAnchor`) can never be built into an NFA: the visitor dispatch fails. -/
theorem buildAST_noVisit_fails :
    ∀ (t : AST) (st : BSt), astHasNoVisit t = true →
      ∀ r, buildAST t st ≠ .ok r := by
  intro t
  induction t with
  | epsilon => intro st h r; simp [astHasNoVisit] at h
  | lit c => intro st h r; simp [astHasNoVisit] at h
  | backref k => intro st h r; simp [astHasNoVisit] at h
  | range c1 c2 => intro st h r; simp [astHasNoVisit] at h
  | dot => intro st h r; simp [buildAST]
  | startAnchor => intro st h r; simp [buildAST]
  | endAnchor => intro st h r; simp [buildAST]
  | seq a b iha ihb =>
    intro st h r
    simp only [astHasNoVisit, Bool.or_eq_true] at h
    intro hok
    simp only [buildAST] at hok
    cases hA : buildAST a st with
    | error e => rw [hA] at hok; simp at hok
    | ok pA =>
      rcases h with h | h
      · exact iha st h pA hA
      · obtain ⟨stA, l1, l2⟩ := pA
        rw [hA] at hok
        simp only [exceptBind_ok] at hok
        cases hB : buildAST b stA with
        | error e => rw [hB] at hok; simp at hok
        | ok pB => exact ihb stA h pB hB
  | orN a b iha ihb =>
    intro st h r
    simp only [astHasNoVisit, Bool.or_eq_true] at h
    intro hok
    simp only [buildAST] at hok
    cases hA : buildAST a (bAdd (bAdd st).1).1 with
    | error e => rw [hA] at hok; simp at hok
    | ok pA =>
      rcases h with h | h
      · exact iha _ h pA hA
      · obtain ⟨stA, l1, l2⟩ := pA
        rw [hA] at hok
        simp only [exceptBind_ok] at hok
        cases hB : buildAST b stA with
        | error e => rw [hB] at hok; simp at hok
        | ok pB => exact ihb stA h pB hB
  | star a iha =>
    intro st h r
    simp only [astHasNoVisit] at h
    intro hok
    simp only [buildAST] at hok
    cases hA : buildAST a (bAdd (bAdd st).1).1 with
    | error e => rw [hA] at hok; simp at hok
    | ok pA => exact iha _ h pA hA
  | plus a iha =>
    intro st h r
    simp only [astHasNoVisit] at h
    intro hok
    simp only [buildAST] at hok
    cases hA : buildAST a (bAdd (bAdd st).1).1 with
    | error e => rw [hA] at hok; simp at hok
    | ok pA => exact iha _ h pA hA
  | group a k iha =>
    intro st h r
    simp only [astHasNoVisit] at h
    intro hok
    simp only [buildAST] at hok
    cases hA : buildAST a (bAdd (bAdd st).1).1 with
    | error e => rw [hA] at hok; simp at hok
    | ok pA => exact iha _ h pA hA

/-- `add_transition` keeps the state count and touches only the source
state's transition list. -/
theorem bAddTrans_ok {st st1 : BSt} {fr dst : Nat} {m : Matcher} {sg eg : Option Nat}
    (h : bAddTrans st fr dst m sg eg = .ok st1) :
    st1.length = st.length ∧ ∀ i, i ≠ fr → st1.getD i [] = st.getD i [] := by
  unfold bAddTrans at h
  by_cases hc : fr < st.length ∧ dst < st.length
  · rw [if_pos hc] at h
    cases h
    constructor
    · simp
    · intro i hi
      exact getD_set_ne st fr i _ [] (fun hfr => hi hfr.symm)
  · rw [if_neg hc] at h
    cases h

/-- `getD` below the length of the left part of an append. -/
theorem getD_append_lt (st : BSt) (tl : List (List Transition)) (i : Nat)
    (hi : i < st.length) : (st ++ tl).getD i [] = st.getD i [] :=
  List.getD_append _ _ _ _ hi

/-- Invariant of the Thompson builder: every visit adds at least one state,
returns entry/exit ids among the states it created, and leaves the
transition lists of the pre-existing states untouched. -/
theorem buildAST_inv :
    ∀ (t : AST) (st st1 : BSt) (e x : Nat), buildAST t st = .ok (st1, e, x) →
      st.length < st1.length ∧ st.length ≤ e ∧ e < st1.length ∧
      st.length ≤ x ∧ x < st1.length ∧
      ∀ i, i < st.length → st1.getD i [] = st.getD i [] := by
  intro t
  induction t with
  | epsilon =>
    intro st st1 e x h
    simp only [buildAST, bAdd] at h
    cases h
    refine ⟨by simp, by simp, by simp, by simp, by simp, ?_⟩
    intro i hi
    exact getD_append_lt st [[]] i hi
  | lit c =>
    intro st st1 e x h
    have h1l : (st ++ [[]]).length = st.length + 1 := by simp
    have h2l : ((st ++ [[]]) ++ [[]]).length = st.length + 2 := by simp
    simp only [buildAST, bAdd, bAddTrans] at h
    rw [if_pos (by omega)] at h
    simp only [exceptBind_ok, Except.ok.injEq, Prod.mk.injEq] at h
    obtain ⟨h1, h2, h3⟩ := h
    subst h1
    subst h2
    subst h3
    refine ⟨?_, ?_, ?_, ?_, ?_, ?_⟩
    · simp only [List.length_set]; omega
    · omega
    · simp only [List.length_set]; omega
    · omega
    · simp only [List.length_set]; omega
    · intro i hi
      rw [getD_set_ne _ _ _ _ _ (by omega), getD_append_lt _ _ _ (by omega),
        getD_append_lt _ _ _ hi]
  | range c1 c2 =>
    intro st st1 e x h
    have h1l : (st ++ [[]]).length = st.length + 1 := by simp
    have h2l : ((st ++ [[]]) ++ [[]]).length = st.length + 2 := by simp
    simp only [buildAST, bAdd, bAddTrans] at h
    rw [if_pos (by omega)] at h
    simp only [exceptBind_ok, Except.ok.injEq, Prod.mk.injEq] at h
    obtain ⟨h1, h2, h3⟩ := h
    subst h1
    subst h2
    subst h3
    refine ⟨?_, ?_, ?_, ?_, ?_, ?_⟩
    · simp only [List.length_set]; omega
    · omega
    · simp only [List.length_set]; omega
    · omega
    · simp only [List.length_set]; omega
    · intro i hi
      rw [getD_set_ne _ _ _ _ _ (by omega), getD_append_lt _ _ _ (by omega),
        getD_append_lt _ _ _ hi]
  | backref k =>
    intro st st1 e x h
    have h1l : (st ++ [[]]).length = st.length + 1 := by simp
    have h2l : ((st ++ [[]]) ++ [[]]).length = st.length + 2 := by simp
    simp only [buildAST, bAdd, bAddTrans] at h
    rw [if_pos (by omega)] at h
    simp only [exceptBind_ok, Except.ok.injEq, Prod.mk.injEq] at h
    obtain ⟨h1, h2, h3⟩ := h
    subst h1
    subst h2
    subst h3
    refine ⟨?_, ?_, ?_, ?_, ?_, ?_⟩
    · simp only [List.length_set]; omega
    · omega
    · simp only [List.length_set]; omega
    · omega
    · simp only [List.length_set]; omega
    · intro i hi
      rw [getD_set_ne _ _ _ _ _ (by omega), getD_append_lt _ _ _ (by omega),
        getD_append_lt _ _ _ hi]
  | seq a b iha ihb =>
    intro st st1 e x h
    simp only [buildAST] at h
    cases hA : buildAST a st with
    | error er => rw [hA] at h; exact absurd h (by simp)
    | ok pA =>
      obtain ⟨stA, l1, l2⟩ := pA
      rw [hA] at h
      simp only [exceptBind_ok] at h
      cases hB : buildAST b stA with
      | error er => rw [hB] at h; exact absurd h (by simp)
      | ok pB =>
        obtain ⟨stB, r1, r2⟩ := pB
        rw [hB] at h
        simp only [exceptBind_ok] at h
        obtain ⟨hA1, hA2, hA3, hA4, hA5, hApres⟩ := iha _ _ _ _ hA
        obtain ⟨hB1, hB2, hB3, hB4, hB5, hBpres⟩ := ihb _ _ _ _ hB
        simp only [bAddTrans] at h
        rw [if_pos (by omega)] at h
        simp only [exceptBind_ok, Except.ok.injEq, Prod.mk.injEq] at h
        obtain ⟨h1, h2, h3⟩ := h
        subst h1
        subst h2
        subst h3
        refine ⟨?_, ?_, ?_, ?_, ?_, ?_⟩
        · simp only [List.length_set]; omega
        · omega
        · simp only [List.length_set]; omega
        · omega
        · simp only [List.length_set]; omega
        · intro i hi
          rw [getD_set_ne _ _ _ _ _ (by omega), hBpres i (by omega), hApres i hi]
  | orN a b iha ihb =>
    intro st st1 e x h
    have h1l : (st ++ [[]]).length = st.length + 1 := by simp
    have h2l : ((st ++ [[]]) ++ [[]]).length = st.length + 2 := by simp
    simp only [buildAST, bAdd] at h
    cases hA : buildAST a ((st ++ [[]]) ++ [[]]) with
    | error er => rw [hA] at h; exact absurd h (by simp)
    | ok pA =>
      obtain ⟨stA, l1, l2⟩ := pA
      rw [hA] at h
      simp only [exceptBind_ok] at h
      cases hB : buildAST b stA with
      | error er => rw [hB] at h; exact absurd h (by simp)
      | ok pB =>
        obtain ⟨stB, r1, r2⟩ := pB
        rw [hB] at h
        simp only [exceptBind_ok] at h
        obtain ⟨hA1, hA2, hA3, hA4, hA5, hApres⟩ := iha _ _ _ _ hA
        obtain ⟨hB1, hB2, hB3, hB4, hB5, hBpres⟩ := ihb _ _ _ _ hB
        simp only [bAddTrans] at h
        rw [if_pos (by omega)] at h
        simp only [exceptBind_ok] at h
        rw [if_pos (by simp only [List.length_set]; omega)] at h
        simp only [exceptBind_ok] at h
        rw [if_pos (by simp only [List.length_set]; omega)] at h
        simp only [exceptBind_ok] at h
        rw [if_pos (by simp only [List.length_set]; omega)] at h
        simp only [exceptBind_ok, Except.ok.injEq, Prod.mk.injEq] at h
        obtain ⟨h1, h2, h3⟩ := h
        subst h1
        subst h2
        subst h3
        refine ⟨?_, ?_, ?_, ?_, ?_, ?_⟩
        · simp only [List.length_set]; omega
        · omega
        · simp only [List.length_set]; omega
        · omega
        · simp only [List.length_set]; omega
        · intro i hi
          rw [getD_set_ne _ _ _ _ _ (by omega), getD_set_ne _ _ _ _ _ (by omega),
            getD_set_ne _ _ _ _ _ (by omega), getD_set_ne _ _ _ _ _ (by omega),
            hBpres i (by omega), hApres i (by omega),
            getD_append_lt _ _ _ (by omega), getD_append_lt _ _ _ hi]
  | star a iha =>
    intro st st1 e x h
    have h1l : (st ++ [[]]).length = st.length + 1 := by simp
    have h2l : ((st ++ [[]]) ++ [[]]).length = st.length + 2 := by simp
    simp only [buildAST, bAdd] at h
    cases hA : buildAST a ((st ++ [[]]) ++ [[]]) with
    | error er => rw [hA] at h; exact absurd h (by simp)
    | ok pA =>
      obtain ⟨stA, l1, l2⟩ := pA
      rw [hA] at h
      simp only [exceptBind_ok] at h
      obtain ⟨hA1, hA2, hA3, hA4, hA5, hApres⟩ := iha _ _ _ _ hA
      simp only [bAddTrans] at h
      rw [if_pos (by omega)] at h
      simp only [exceptBind_ok] at h
      rw [if_pos (by simp only [List.length_set]; omega)] at h
      simp only [exceptBind_ok] at h
      rw [if_pos (by simp only [List.length_set]; omega)] at h
      simp only [exceptBind_ok] at h
      rw [if_pos (by simp only [List.length_set]; omega)] at h
      simp only [exceptBind_ok, Except.ok.injEq, Prod.mk.injEq] at h
      obtain ⟨h1, h2, h3⟩ := h
      subst h1
      subst h2
      subst h3
      refine ⟨?_, ?_, ?_, ?_, ?_, ?_⟩
      · simp only [List.length_set]; omega
      · omega
      · simp only [List.length_set]; omega
      · omega
      · simp only [List.length_set]; omega
      · intro i hi
        rw [getD_set_ne _ _ _ _ _ (by omega), getD_set_ne _ _ _ _ _ (by omega),
          getD_set_ne _ _ _ _ _ (by omega), getD_set_ne _ _ _ _ _ (by omega),
          hApres i (by omega),
          getD_append_lt _ _ _ (by omega), getD_append_lt _ _ _ hi]
  | plus a iha =>
    intro st st1 e x h
    have h1l : (st ++ [[]]).length = st.length + 1 := by simp
    have h2l : ((st ++ [[]]) ++ [[]]).length = st.length + 2 := by simp
    simp only [buildAST, bAdd] at h
    cases hA : buildAST a ((st ++ [[]]) ++ [[]]) with
    | error er => rw [hA] at h; exact absurd h (by simp)
    | ok pA =>
      obtain ⟨stA, l1, l2⟩ := pA
      rw [hA] at h
      simp only [exceptBind_ok] at h
      obtain ⟨hA1, hA2, hA3, hA4, hA5, hApres⟩ := iha _ _ _ _ hA
      simp only [bAddTrans] at h
      rw [if_pos (by omega)] at h
      simp only [exceptBind_ok] at h
      rw [if_pos (by simp only [List.length_set]; omega)] at h
      simp only [exceptBind_ok] at h
      rw [if_pos (by simp only [List.length_set]; omega)] at h
      simp only [exceptBind_ok, Except.ok.injEq, Prod.mk.injEq] at h
      obtain ⟨h1, h2, h3⟩ := h
      subst h1
      subst h2
      subst h3
      refine ⟨?_, ?_, ?_, ?_, ?_, ?_⟩
      · simp only [List.length_set]; omega
      · omega
      · simp only [List.length_set]; omega
      · omega
      · simp only [List.length_set]; omega
      · intro i hi
        rw [getD_set_ne _ _ _ _ _ (by omega), getD_set_ne _ _ _ _ _ (by omega),
          getD_set_ne _ _ _ _ _ (by omega),
          hApres i (by omega),
          getD_append_lt _ _ _ (by omega), getD_append_lt _ _ _ hi]
  | group a k iha =>
    intro st st1 e x h
    have h1l : (st ++ [[]]).length = st.length + 1 := by simp
    have h2l : ((st ++ [[]]) ++ [[]]).length = st.length + 2 := by simp
    simp only [buildAST, bAdd] at h
    cases hA : buildAST a ((st ++ [[]]) ++ [[]]) with
    | error er => rw [hA] at h; exact absurd h (by simp)
    | ok pA =>
      obtain ⟨stA, l1, l2⟩ := pA
      rw [hA] at h
      simp only [exceptBind_ok] at h
      obtain ⟨hA1, hA2, hA3, hA4, hA5, hApres⟩ := iha _ _ _ _ hA
      simp only [bAddTrans] at h
      rw [if_pos (by omega)] at h
      simp only [exceptBind_ok] at h
      rw [if_pos (by simp only [List.length_set]; omega)] at h
      simp only [exceptBind_ok, Except.ok.injEq, Prod.mk.injEq] at h
      obtain ⟨h1, h2, h3⟩ := h
      subst h1
      subst h2
      subst h3
      refine ⟨?_, ?_, ?_, ?_, ?_, ?_⟩
      · simp only [List.length_set]; omega
      · omega
      · simp only [List.length_set]; omega
      · omega
      · simp only [List.length_set]; omega
      · intro i hi
        rw [getD_set_ne _ _ _ _ _ (by omega), getD_set_ne _ _ _ _ _ (by omega),
          hApres i (by omega),
          getD_append_lt _ _ _ (by omega), getD_append_lt _ _ _ hi]
  | dot =>
    intro st st1 e x h
    exact absurd h (by simp [buildAST])
  | startAnchor =>
    intro st st1 e x h
    exact absurd h (by simp [buildAST])
  | endAnchor =>
    intro st st1 e x h
    exact absurd h (by simp [buildAST])

/-- Claim C2 (amended): alternation is left-preferring, not
right-preferring.  Stated against the compiled NFA of the pattern `a|b`
wrapped in group 0 (as `parse` always wraps): if exploring the executor
from the left alternative's entry frame alone finds a match, then the full
`_search` run returns exactly that match, whatever the right alternative
could do — the builder inserts the left branch's epsilon edge first, the
executor iterates edges in reverse insertion order when pushing, so the
left frame ends on top of the LIFO stack and is explored first. -/
theorem orRun_left_preferred (a b : AST) (stA stB : BSt) (l1 l2 r1 r2 : Nat)
    (nfa : NFA) (s : List Char) (i fuel : Nat) (m : MatchRes)
    (hA : buildAST a [[], [], [], []] = .ok (stA, l1, l2))
    (hB : buildAST b stA = .ok (stB, r1, r2))
    (hN : compileAST (.group (.orN a b) 0) = .ok nfa)
    (hL : runSearch nfa s fuel
      [⟨i, i, l1, [2, 0], [(0, ⟨i, none, none⟩)]⟩] = .ok (.found m)) :
    searchAt nfa s (fuel + 2) i = .ok (.found m) := by
  obtain ⟨hA1, hA2, hA3, hA4, hA5, hApres⟩ := buildAST_inv a _ _ _ _ hA
  obtain ⟨hB1, hB2, hB3, hB4, hB5, hBpres⟩ := buildAST_inv b _ _ _ _ hB
  have h4 : List.length ([[], [], [], []] : BSt) = 4 := rfl
  simp only [compileAST] at hN
  cases hC : buildAST (.group (.orN a b) 0) [] with
  | error er => rw [hC] at hN; exact absurd hN (by simp)
  | ok p =>
    obtain ⟨T, s0, e0⟩ := p
    rw [hC] at hN
    simp only [exceptBind_ok, Except.ok.injEq] at hN
    simp [buildAST, bAdd] at hC
    rw [hA] at hC
    simp only [exceptBind_ok] at hC
    rw [hB] at hC
    simp only [exceptBind_ok] at hC
    simp only [bAddTrans] at hC
    rw [if_pos (by omega)] at hC
    simp only [exceptBind_ok] at hC
    rw [if_pos (by simp only [List.length_set]; omega)] at hC
    simp only [exceptBind_ok] at hC
    rw [if_pos (by simp only [List.length_set]; omega)] at hC
    simp only [exceptBind_ok] at hC
    rw [if_pos (by simp only [List.length_set]; omega)] at hC
    simp only [exceptBind_ok] at hC
    rw [if_pos (by simp only [List.length_set]; omega)] at hC
    simp only [exceptBind_ok] at hC
    rw [if_pos (by simp only [List.length_set]; omega)] at hC
    simp only [exceptBind_ok, Except.ok.injEq, Prod.mk.injEq] at hC
    obtain ⟨hT, hs0, he0⟩ := hC
    subst hs0
    subst he0
    subst hN
    have hRow0 : T.getD 0 [] = [⟨.epsilonM, 2, some 0, none⟩] := by
      rw [← hT]
      rw [getD_set_ne _ _ _ _ _ (by omega)]
      rw [getD_set_self _ _ _ _ (by simp only [List.length_set]; omega)]
      rw [getD_set_ne _ _ _ _ _ (by omega)]
      rw [getD_set_ne _ _ _ _ _ (by omega)]
      rw [getD_set_ne _ _ _ _ _ (by omega)]
      rw [getD_set_ne _ _ _ _ _ (by omega)]
      rw [hBpres 0 (by omega), hApres 0 (by omega)]
      simp
    have hRow2 : T.getD 2 [] =
        [⟨.epsilonM, l1, none, none⟩, ⟨.epsilonM, r1, none, none⟩] := by
      rw [← hT]
      rw [getD_set_ne _ _ _ _ _ (by omega)]
      rw [getD_set_ne _ _ _ _ _ (by omega)]
      rw [getD_set_ne _ _ _ _ _ (by omega)]
      rw [getD_set_ne _ _ _ _ _ (by omega)]
      rw [getD_set_self _ _ _ _ (by simp only [List.length_set]; omega)]
      rw [getD_set_self _ _ _ _ (by omega)]
      rw [hBpres 2 (by omega), hApres 2 (by omega)]
      simp
    have hRow0e : T[0]?.getD [] = [⟨.epsilonM, 2, some 0, none⟩] := by
      simpa using hRow0
    have hRow2e : T[2]?.getD [] =
        [⟨.epsilonM, l1, none, none⟩, ⟨.epsilonM, r1, none, none⟩] := by
      simpa using hRow2
    unfold searchAt
    rw [show fuel + 2 = (fuel + 1) + 1 from rfl]
    rw [runSearch_succ_cons]
    rw [if_neg (by simp)]
    have hexp1 : expand (NFA.mk T 0 [1]) s ⟨i, i, 0, [], []⟩ =
        .ok [⟨i, i, 2, [0], [(0, ⟨i, none, none⟩)]⟩] := by
      simp [expand, expandGo, Matcher.matchAt, Matcher.isEpsilonAt,
        Matcher.numConsumed, applyGroupOps, gSet, List.insert, hRow0e]
    rw [hexp1]
    simp only [exceptBindM_ok, List.append_nil]
    rw [runSearch_succ_cons]
    rw [if_neg (by simp)]
    have hexp2 : expand (NFA.mk T 0 [1]) s ⟨i, i, 2, [0], [(0, ⟨i, none, none⟩)]⟩ =
        .ok [⟨i, i, l1, [2, 0], [(0, ⟨i, none, none⟩)]⟩,
             ⟨i, i, r1, [2, 0], [(0, ⟨i, none, none⟩)]⟩] := by
      simp [expand, expandGo, Matcher.matchAt, Matcher.isEpsilonAt,
        Matcher.numConsumed, applyGroupOps, gSet, List.insert, hRow2e]
    rw [hexp2]
    simp only [exceptBindM_ok, List.append_nil]
    exact runSearch_append_found _ _ fuel
      [⟨i, i, l1, [2, 0], [(0, ⟨i, none, none⟩)]⟩]
      [⟨i, i, r1, [2, 0], [(0, ⟨i, none, none⟩)]⟩] m hL

/-- Capture-map invariant carried by a live frame of `_search` started at
index `i` with cursor `cur`: every recorded group opened at or after `i` and
at or before the cursor, and a closed group closed no earlier than it
opened. -/
def GroupsOk (i cur : Nat) (g : Groups) : Prop :=
  ∀ p ∈ g, i ≤ p.2.start ∧ p.2.start ≤ cur ∧ ∀ e ∈ p.2.endIdx, p.2.start ≤ e

/-- Invariant of a live frame of `_search` started at index `i`. -/
def FrameInv (i : Nat) (f : Frame) : Prop :=
  i ≤ f.cursor ∧ GroupsOk i f.cursor f.groups

/-- What survives of the invariant in a returned match. -/
def GroupsFinal (i : Nat) (g : Groups) : Prop :=
  ∀ p ∈ g, i ≤ p.2.start ∧ ∀ e ∈ p.2.endIdx, p.2.start ≤ e

/-- Membership after a dict assignment: an entry of `gSet g k v` is an old
entry or the new binding. -/
theorem gSet_mem {g : Groups} {k : Nat} {v : MRec} :
    ∀ x ∈ gSet g k v, x ∈ g ∨ x = (k, v) := by
  induction g with
  | nil => intro x hx; simp [gSet] at hx; right; exact hx
  | cons p rest ih =>
    intro x hx
    simp only [gSet] at hx
    by_cases hp : p.1 = k
    · rw [if_pos hp] at hx
      rcases List.mem_cons.mp hx with h | h
      · right; exact h
      · left; exact List.mem_cons_of_mem _ h
    · rw [if_neg hp] at hx
      rcases List.mem_cons.mp hx with h | h
      · left; rw [h]; exact List.mem_cons_self _ _
      · rcases ih x h with h1 | h1
        · left; exact List.mem_cons_of_mem _ h1
        · right; exact h1

/-- A successful dict lookup comes from a member of the association list. -/
theorem gGet?_mem {g : Groups} {k : Nat} {r : MRec} (h : gGet? g k = some r) :
    (k, r) ∈ g := by
  unfold gGet? at h
  cases hf : List.find? (fun p => p.1 = k) g with
  | none => rw [hf] at h; simp at h
  | some p =>
    rw [hf] at h
    simp at h
    have hp := List.find?_some hf
    have hm := List.mem_of_find?_eq_some hf
    simp at hp
    have : p = (k, r) := by
      cases p with
      | mk p1 p2 => simp at hp h; rw [hp, h]
    rw [← this]
    exact hm

/-- `GroupsOk` is monotone in the cursor. -/
theorem GroupsOk.mono {i cur cur1 : Nat} {g : Groups} (h : GroupsOk i cur g)
    (hc : cur ≤ cur1) : GroupsOk i cur1 g := by
  intro p hp
  obtain ⟨h1, h2, h3⟩ := h p hp
  exact ⟨h1, le_trans h2 hc, h3⟩

/-- The group bookkeeping on a pushed frame preserves the capture-map
invariant at the advanced cursor. -/
theorem applyGroupOps_inv {t : Transition} {g g1 : Groups} {nc : Nat} {s : List Char}
    {i cur : Nat} (h : applyGroupOps t g nc s = .ok g1)
    (hg : GroupsOk i cur g) (hi : i ≤ cur) (hcur : cur ≤ nc) :
    GroupsOk i nc g1 := by
  unfold applyGroupOps at h
  cases hsg : t.startGroup with
  | some k =>
    rw [hsg] at h
    dsimp only at h
    cases h
    intro p hp
    rcases gSet_mem p hp with hold | hnew
    · exact (hg.mono hcur) p hold
    · rw [hnew]
      exact ⟨le_trans hi hcur, le_refl _, by simp⟩
  | none =>
    rw [hsg] at h
    dsimp only at h
    cases heg : t.endGroup with
    | some k =>
      rw [heg] at h
      dsimp only at h
      cases hget : gGet? g k with
      | none => rw [hget] at h; dsimp only at h; cases h
      | some rec =>
        rw [hget] at h
        dsimp only at h
        cases h
        have hrec := hg _ (gGet?_mem hget)
        intro p hp
        rcases gSet_mem p hp with hold | hnew
        · exact (hg.mono hcur) p hold
        · rw [hnew]
          refine ⟨hrec.1, le_trans hrec.2.1 hcur, ?_⟩
          intro e he
          simp at he
          rw [← he]
          exact le_trans hrec.2.1 hcur
    | none =>
      rw [heg] at h
      dsimp only at h
      cases h
      exact hg.mono hcur

/-- Every frame produced by the transition loop of `_search` satisfies the
frame invariant: the cursor only advances (`num_consumed` is a `Nat`), and
the group bookkeeping preserves the capture-map invariant. -/
theorem expandGo_inv {s : List Char} {f : Frame} {i : Nat} :
    ∀ ts fs, expandGo s f ts = .ok fs → FrameInv i f →
      ∀ f1 ∈ fs, FrameInv i f1 := by
  intro ts
  induction ts with
  | nil =>
    intro fs h hf f1 hf1
    simp only [expandGo] at h
    cases h
    simp at hf1
  | cons t ts ih =>
    intro fs h hf f1 hf1
    simp only [expandGo] at h
    cases hm : t.matchSymbol.matchAt s f.cursor f.groups with
    | error er => rw [hm] at h; simp at h
    | ok b =>
      rw [hm] at h
      simp only [exceptBind_ok] at h
      cases b with
      | false =>
        rw [if_neg (by simp)] at h
        exact ih fs h hf f1 hf1
      | true =>
        rw [if_pos rfl] at h
        cases he : t.matchSymbol.isEpsilonAt (some f.groups) with
        | error er => rw [he] at h; simp at h
        | ok e1 =>
          rw [he] at h
          simp only [exceptBind_ok] at h
          by_cases hc : (e1 && decide (f.state ∈ f.cycle)) = true
          · rw [if_pos hc] at h
            exact ih fs h hf f1 hf1
          · rw [if_neg hc] at h
            cases hn : t.matchSymbol.numConsumed f.groups with
            | error er => rw [hn] at h; simp at h
            | ok n =>
              rw [hn] at h
              simp only [exceptBind_ok] at h
              cases hgo : applyGroupOps t f.groups (f.cursor + n) s with
              | error er => rw [hgo] at h; simp at h
              | ok g1 =>
                rw [hgo] at h
                simp only [exceptBind_ok] at h
                cases hrest : expandGo s f ts with
                | error er => rw [hrest] at h; simp at h
                | ok rest =>
                  rw [hrest] at h
                  simp only [exceptBind_ok] at h
                  cases h
                  rcases List.mem_cons.mp hf1 with h1 | h1
                  · rw [h1]
                    refine ⟨le_trans hf.1 (Nat.le_add_right _ _), ?_⟩
                    exact applyGroupOps_inv hgo hf.2 hf.1 (Nat.le_add_right _ _)
                  · exact ih rest hrest hf f1 h1

/-- A match returned by the `_search` stack loop from a stack of invariant
frames satisfies the final capture-map invariant. -/
theorem runSearch_found_inv {nfa : NFA} {s : List Char} {i : Nat} :
    ∀ fuel stack m, runSearch nfa s fuel stack = .ok (.found m) →
      (∀ f ∈ stack, FrameInv i f) → GroupsFinal i m.groups := by
  intro fuel
  induction fuel with
  | zero =>
    intro stack m h hs
    cases stack with
    | nil => rw [runSearch_nil] at h; exact absurd h (by simp)
    | cons f rest => rw [runSearch_zero_cons] at h; exact absurd h (by simp)
  | succ fu ih =>
    intro stack m h hs
    cases stack with
    | nil => rw [runSearch_nil] at h; exact absurd h (by simp)
    | cons f rest =>
      rw [runSearch_succ_cons] at h
      by_cases hacc : f.state ∈ nfa.endStates
      · rw [if_pos hacc] at h
        simp at h
        rw [← h]
        have hf := hs f (List.mem_cons_self _ _)
        intro p hp
        obtain ⟨h1, h2, h3⟩ := hf.2 p hp
        exact ⟨h1, h3⟩
      · rw [if_neg hacc] at h
        cases hexp : expand nfa s f with
        | error er => rw [hexp] at h; exact absurd h (by simp)
        | ok pushed =>
          rw [hexp] at h
          simp only [exceptBindM_ok] at h
          refine ih (pushed ++ rest) m h ?_
          intro f1 hf1
          rcases List.mem_append.mp hf1 with h1 | h1
          · unfold expand at hexp
            cases hgo : expandGo s f ((nfa.states.getD f.state []).reverse) with
            | error er => rw [hgo] at hexp; simp at hexp
            | ok fs =>
              rw [hgo] at hexp
              simp only [exceptBind_ok] at hexp
              cases hexp
              exact expandGo_inv _ fs hgo (hs f (List.mem_cons_self _ _)) f1
                (List.mem_reverse.mp h1)
          · exact hs f1 (List.mem_cons_of_mem _ h1)

/-- A match found by the scan loop of `NFA.search` starting at `j` was found
by `_search` at some index at or after `j`, so its captures satisfy the
final invariant for that index. -/
theorem searchGo_found {nfa : NFA} {s : List Char} {F : Nat} :
    ∀ n j m, searchGo nfa s F n j = .ok (.found m) →
      ∃ i0, j ≤ i0 ∧ GroupsFinal i0 m.groups := by
  intro n
  induction n with
  | zero =>
    intro j m h
    simp only [searchGo] at h
    exact absurd h (by simp)
  | succ n ih =>
    intro j m h
    simp only [searchGo] at h
    cases hr : runSearch nfa s F [⟨j, j, nfa.startState, [], []⟩] with
    | error er => rw [hr] at h; exact absurd h (by simp)
    | ok r =>
      rw [hr] at h
      simp only [exceptBind_ok] at h
      cases r with
      | found m1 =>
        simp at h
        refine ⟨j, le_refl j, ?_⟩
        rw [← h]
        refine runSearch_found_inv F _ m1 hr ?_
        intro f hf
        simp at hf
        rw [hf]
        exact ⟨le_refl j, by intro p hp; simp at hp⟩
      | noMatch fl =>
        obtain ⟨i0, hi0, hg⟩ := ih (j + 1) m h
        exact ⟨i0, by omega, hg⟩
      | fuelOut => exact absurd h (by simp)

/-- The iteration contract of `finditer`, tracked along the cursor: each
yielded match has a closed group 0 starting at or after the current cursor
and ending at or after its start, and the cursor then moves to the match
end, one further if the match was empty. -/
def IterChain : Nat → List MatchRes → Prop
  | _, [] => True
  | cur, m :: ms => ∃ rec e, gGet? m.groups 0 = some rec ∧ rec.endIdx = some e ∧
      cur ≤ rec.start ∧ rec.start ≤ e ∧
      IterChain (if e = rec.start then e + 1 else e) ms

/-- A completed `finditer` run satisfies the iteration contract from its
starting cursor. -/
theorem finditerGo_chain {nfa : NFA} {s : List Char} {F : Nat} :
    ∀ ofuel cur ms, finditerGo nfa s F ofuel cur = .ok (.complete ms) →
      IterChain cur ms := by
  intro ofuel
  induction ofuel with
  | zero =>
    intro cur ms h
    simp only [finditerGo] at h
    exact absurd h (by simp)
  | succ ofu ih =>
    intro cur ms h
    simp only [finditerGo] at h
    cases hr : searchFrom nfa s F cur with
    | error er => rw [hr] at h; exact absurd h (by simp)
    | ok r =>
      rw [hr] at h
      simp only [exceptBind_ok] at h
      cases r with
      | noMatch =>
        simp at h
        subst h
        trivial
      | fuelOut => exact absurd h (by simp)
      | found m =>
        dsimp only at h
        cases hget : gGet? m.groups 0 with
        | none => rw [hget] at h; exact absurd h (by simp)
        | some rec =>
          rw [hget] at h
          dsimp only at h
          cases hend : rec.endIdx with
          | none => rw [hend] at h; exact absurd h (by simp)
          | some e =>
            rw [hend] at h
            dsimp only at h
            obtain ⟨i0, hi0, hfin⟩ := searchGo_found _ _ m hr
            obtain ⟨hstart, hclose⟩ := hfin _ (gGet?_mem hget)
            dsimp only at hstart hclose
            have hse : rec.start ≤ e := hclose e (by rw [hend]; simp)
            by_cases hstop : s.length < (if e = rec.start then e + 1 else e)
            · rw [if_pos hstop] at h
              simp at h
              rw [← h]
              exact ⟨rec, e, hget, hend, by omega, hse, trivial⟩
            · rw [if_neg hstop] at h
              cases hrec : finditerGo nfa s F ofu (if e = rec.start then e + 1 else e) with
              | error er => rw [hrec] at h; exact absurd h (by simp)
              | ok r2 =>
                rw [hrec] at h
                simp only [exceptBind_ok] at h
                cases r2 with
                | complete ms2 =>
                  simp at h
                  rw [← h]
                  exact ⟨rec, e, hget, hend, by omega, hse, ih _ ms2 hrec⟩
                | fuelOut => exact absurd h (by simp)
                | innerFuelOut => exact absurd h (by simp)

/-- With outer fuel at least `len(s) + 2 - cur`, the `finditer` loop never
runs out: every yield advances the cursor by at least one, and the loop
stops once the cursor passes the end of the input. -/
theorem finditerGo_no_fuelOut {nfa : NFA} {s : List Char} {F : Nat} :
    ∀ ofuel cur, 1 ≤ ofuel → s.length + 2 ≤ ofuel + cur →
      finditerGo nfa s F ofuel cur ≠ .ok .fuelOut := by
  intro ofuel
  induction ofuel with
  | zero => intro cur h1 h2; omega
  | succ ofu ih =>
    intro cur h1 h2
    simp only [finditerGo]
    cases hr : searchFrom nfa s F cur with
    | error er => simp
    | ok r =>
      simp only [exceptBind_ok]
      cases r with
      | noMatch => simp
      | fuelOut => simp
      | found m =>
        dsimp only
        cases hget : gGet? m.groups 0 with
        | none => simp
        | some rec =>
          dsimp only
          cases hend : rec.endIdx with
          | none => simp
          | some e =>
            dsimp only
            obtain ⟨i0, hi0, hfin⟩ := searchGo_found _ _ m hr
            obtain ⟨hstart, hclose⟩ := hfin _ (gGet?_mem hget)
            dsimp only at hstart hclose
            have hse : rec.start ≤ e := hclose e (by rw [hend]; simp)
            by_cases hstop : s.length < (if e = rec.start then e + 1 else e)
            · rw [if_pos hstop]
              simp
            · rw [if_neg hstop]
              have hcur1 : cur + 1 ≤ (if e = rec.start then e + 1 else e) := by
                by_cases hemp : e = rec.start
                · rw [if_pos hemp]; omega
                · rw [if_neg hemp]; omega
              have hle : (if e = rec.start then e + 1 else e) ≤ s.length := by omega
              cases hrec : finditerGo nfa s F ofu (if e = rec.start then e + 1 else e) with
              | error er => simp
              | ok r2 =>
                simp only [exceptBind_ok]
                cases r2 with
                | complete ms2 => simp
                | innerFuelOut => simp
                | fuelOut =>
                  exact absurd hrec (ih _ (by omega) (by omega))

/-- Relation between consecutive `finditer` yields, in terms of the
recorded group-0 spans: the later end is at least the earlier end, the
spans do not overlap (the later start is at least the earlier end), and an
empty earlier match pushes the later start at least one further. -/
def chainRel (m1 m2 : MatchRes) : Prop :=
  ∀ r1 e1 r2 e2, gGet? m1.groups 0 = some r1 → r1.endIdx = some e1 →
    gGet? m2.groups 0 = some r2 → r2.endIdx = some e2 →
    e1 ≤ e2 ∧ e1 ≤ r2.start ∧ (r1.start = e1 → e1 + 1 ≤ r2.start)

/-- The iteration contract implies the pairwise chain relation. -/
theorem iterChain_chain : ∀ (ms : List MatchRes) (cur : Nat),
    IterChain cur ms → List.Chain' chainRel ms := by
  intro ms
  induction ms with
  | nil => intro cur h; simp
  | cons m1 rest ih =>
    intro cur h
    obtain ⟨rec1, e1, hg1, he1, hc1, hs1, htail⟩ := h
    cases rest with
    | nil => simp
    | cons m2 ms2 =>
      have htail2 := htail
      obtain ⟨rec2, e2, hg2, he2, hc2, hs2, _⟩ := htail2
      rw [List.chain'_cons]
      refine ⟨?_, ih _ htail⟩
      intro r1 f1 r2 f2 hr1 hf1 hr2 hf2
      rw [hg1] at hr1
      injection hr1 with hr1
      subst hr1
      rw [he1] at hf1
      injection hf1 with hf1
      subst hf1
      rw [hg2] at hr2
      injection hr2 with hr2
      subst hr2
      rw [he2] at hf2
      injection hf2 with hf2
      subst hf2
      have hcur1 : e1 ≤ (if e1 = rec1.start then e1 + 1 else e1) := by
        by_cases hq : e1 = rec1.start
        · rw [if_pos hq]; omega
        · rw [if_neg hq]
      refine ⟨by omega, by omega, ?_⟩
      intro hemp
      have : (if e1 = rec1.start then e1 + 1 else e1) = e1 + 1 := if_pos hemp.symm
      omega

/-- The matcher variants other than `Inverse`. -/
def Matcher.isBasic : Matcher → Bool
  | .inverse _ => false
  | _ => true

/-- An anchor in the AST implies a node with no visit method. -/
theorem astHasAnchor_noVisit : ∀ t : AST, astHasAnchor t = true → astHasNoVisit t = true := by
  intro t
  induction t <;> simp_all [astHasAnchor, astHasNoVisit] <;> tauto

/-- A dot in the AST implies a node with no visit method. -/
theorem astHasDot_noVisit : ∀ t : AST, astHasDot t = true → astHasNoVisit t = true := by
  intro t
  induction t <;> simp_all [astHasDot, astHasNoVisit] <;> tauto

/-- Building the pipeline NFA from a parsed AST containing a node with no
visit method always fails. -/
theorem compileRegex_noVisit_fails (fu : Nat) (p : String) (t : AST)
    (hp : parseRegex fu p = .ok t) (ha : astHasNoVisit t = true) :
    eIsOk (compileRegex fu p) = false := by
  unfold compileRegex
  rw [hp]
  dsimp only
  cases hc : compileAST t with
  | error e => rfl
  | ok nfa =>
    exfalso
    unfold compileAST at hc
    cases hb : buildAST t [] with
    | error e => rw [hb] at hc; exact absurd hc (by simp)
    | ok r => exact buildAST_noVisit_fails t [] ha r hb

/-- Claim C8 (amended): the cursor-validity bound holds for the
non-`Inverse` matcher primitives (Character, Range, Epsilon, BackReference)
at a valid cursor (`position ≤ len(input)`): a successful `matches` with a
defined `consumed` keeps the advanced cursor within the input.  `Inverse`
violates the bound (see the counterexample), and a back-reference to an
unrecorded group has no defined `consumed` (it raises `KeyError`). -/
theorem matcher_consumed_bound (m : Matcher) (s : List Char) (i : Nat) (g : Groups)
    (n : Nat) (hb : m.isBasic = true) (hi : i ≤ s.length)
    (hm : m.matchAt s i g = .ok true) (hn : m.numConsumed g = .ok n) :
    i + n ≤ s.length := by
  cases m with
  | character c =>
    simp [Matcher.matchAt] at hm
    simp [Matcher.numConsumed] at hn
    omega
  | epsilonM =>
    simp [Matcher.numConsumed] at hn
    omega
  | range lo hi2 =>
    simp [Matcher.matchAt] at hm
    simp [Matcher.numConsumed] at hn
    omega
  | backreference ref =>
    cases hget : gGet? g ref with
    | none => simp [Matcher.numConsumed, hget] at hn
    | some rec =>
      cases hsub : rec.substr with
      | none => simp [Matcher.numConsumed, hget, hsub] at hn
      | some sub =>
        simp [Matcher.numConsumed, hget, hsub] at hn
        simp [Matcher.matchAt, hget, hsub] at hm
        have hlen : ((s.drop i).take sub.length).length = sub.length := by rw [hm]
        rw [List.length_take, List.length_drop] at hlen
        have h2 : sub.length ≤ s.length - i := by
          rw [← hlen]
          exact Nat.min_le_right _ _
        omega
  | inverse m1 => simp [Matcher.isBasic] at hb

/-- Claim C1.  The claim states that `compile("aa").match("aabyeh")` returns
a match with group 0 `"aa"` and that a `Literal(c)` node compiles to a
matcher accepting exactly the character `c`.  On the code this fails:
`visit_literal` hands `node.item()` — the quote-wrapped string `'a'` — to
`CharacterMatcher`, whose equality test against a single input character can
then never succeed, so the pipeline returns no match on `"aabyeh"`.  The
second conjunct exhibits the quote-wrapped matcher produced for
`Literal('a')`. -/
theorem c1_literal_pipeline_no_match :
    runMatchO 50 100 "aa" "aabyeh" = .ok .noMatch
    ∧ buildAST (.lit 'a') [] =
        .ok ([[⟨.character [quoteChar, 'a', quoteChar], 1, none, none⟩], []], 0, 1) :=
  ⟨rfl, rfl⟩

/-- Claim C2 (counterexample).  For the pattern `()|()` on the empty input,
both alternatives can produce a match at position 0 (the second conjunct
shows that the right alternative, as the standalone pattern `()`, matches
the empty input).  The executor nevertheless returns the match of the
*left* alternative: group 1 is recorded and group 2 is not, refuting the
claimed right-preference. -/
theorem c2_right_preference_fails :
    (runMatchO 50 100 "()|()" "").map
      (fun o => (o.isMatched, o.hasGroup 1, o.hasGroup 2)) = .ok (true, true, false)
    ∧ (runMatchO 50 100 "()" "").map Outcome.isMatched = .ok true :=
  ⟨rfl, rfl⟩

/-- Claim C2 (amended and proved by `orRun_left_preferred`), witness: for
`a := ()` (group 1) and `b := ()` (group 2) compiled as `(a|b)` under group
0, the full executor run on the empty input returns the left alternative's
match, which records group 1. -/
theorem orRun_left_preferred_witness :
    searchAt ((compileAST (.group (.orN (.group .epsilon 1) (.group .epsilon 2)) 0)).toOption.getD
        ⟨[], 0, []⟩) [] 22 0 =
      .ok (.found ⟨[(0, ⟨0, some 0, some []⟩), (1, ⟨0, some 0, some []⟩)]⟩) :=
  orRun_left_preferred (.group .epsilon 1) (.group .epsilon 2)
    ((buildAST (.group .epsilon 1) [[], [], [], []]).toOption.getD ([], 0, 0)).1
    ((buildAST (.group .epsilon 2)
        ((buildAST (.group .epsilon 1) [[], [], [], []]).toOption.getD ([], 0, 0)).1).toOption.getD
      ([], 0, 0)).1
    4 5 7 8 _ [] 0 20 _ rfl rfl rfl rfl

/-- Claim C3.  The claim states that a back-reference to an unrecorded group
matches, consumes 0, and execution proceeds without error.  On the code the
matcher's `match` does return `True`, but the executor then calls
`is_epsilon`, which indexes `groups[self.reference]` with no guard: for the
pattern `(a)|\1` on the empty input (where the right alternative reaches the
back-reference with group 1 unrecorded) the run raises `KeyError` instead of
completing. -/
theorem c3_backref_unrecorded_raises :
    runMatch 50 100 "(a)|\\1" "" = .error (.run .keyError) :=
  rfl

/-- Claim C4 (counterexample).  The claim states that every pattern with `^`
or `$` compiles and the anchors are run-time no-ops.  On the code the parser
does produce the anchor AST node, but `NFABuilder` has no
`visit_start_anchor` method, so constructing the `Regex` for `"^a"` fails
with an `AttributeError` during NFA construction. -/
theorem c4_anchor_compile_errors :
    compileRegex 50 "^a" = .error (.build .attributeError)
    ∧ parseRegex 50 "^a" = .ok (.group (.seq .startAnchor (.lit 'a')) 0) :=
  ⟨rfl, rfl⟩

/-- Claim C4 (amended): for every pattern whose parse succeeds with an AST
containing a `StartAnchor` or `EndAnchor` node, compilation fails — the
visitor has no anchor methods, so NFA construction raises instead of
treating anchors as no-ops. -/
theorem c4_anchor_build_always_fails (fu : Nat) (p : String) (t : AST)
    (hp : parseRegex fu p = .ok t) (ha : astHasAnchor t = true) :
    eIsOk (compileRegex fu p) = false :=
  compileRegex_noVisit_fails fu p t hp (astHasAnchor_noVisit t ha)

/-- Claim C4 (amended), witness at the pattern `"^a"`. -/
theorem c4_anchor_build_always_fails_witness :
    eIsOk (compileRegex 50 "^a") = false :=
  c4_anchor_build_always_fails 50 "^a" (.group (.seq .startAnchor (.lit 'a')) 0) rfl rfl

/-- Claim C5.  The claim states greedy quantifiers: `a*` on `"aaaa"` yields
group 0 `"aaaa"`, and `a+` on the empty input yields no match.  On the code
the second half holds, but the first fails: literal matchers are built from
the quote-wrapped `item()` string, so the starred literal never consumes and
`a*` on `"aaaa"` returns the empty match. -/
theorem c5_star_on_aaaa_empty :
    (runMatchO 50 200 "a*" "aaaa").map Outcome.group0 = .ok (some [])
    ∧ runMatchO 50 100 "a+" "" = .ok .noMatch :=
  ⟨rfl, rfl⟩

/-- Claim C6.  The claim states that after a backslash at most 3 digits are
read.  In `_parse_digit` the `counter` compared against `max_digits` is
never incremented, so the whole digit run is consumed: the second conjunct
shows the digit loop consuming all four digits of `"0001"` under a limit of
3, and the first shows the consequence — `"(a)\0001"` compiles to a
back-reference to group 1 instead of stopping after `"000"` (a reference to
the nonexistent group 0, which would raise). -/
theorem c6_digit_run_overrun :
    parseRegex 50 "(a)\\0001" =
      .ok (.group (.seq (.group (.lit 'a') 1) (.backref 1)) 0)
    ∧ parseDigitRun (some 3) 0 ['0', '0', '0', '1'] = (['0', '0', '0', '1'], []) :=
  ⟨rfl, rfl⟩

/-- Claim C7.  The `finditer` iteration contract, for every NFA and input:
a completed iteration yields matches whose group-0 spans have monotonically
nondecreasing ends, never overlap, and advance by at least one extra
position after an empty match (`List.Chain' chainRel`); and with outer fuel
at least `len(input) + 2` the iteration loop itself terminates (never
reports `fuelOut`), because each yield strictly advances the cursor and the
loop stops once the cursor passes the end of the input. -/
theorem finditer_contract (nfa : NFA) (s : List Char) (F ofuel : Nat) :
    (∀ ms, finditerGo nfa s F ofuel 0 = .ok (.complete ms) → List.Chain' chainRel ms)
    ∧ (s.length + 2 ≤ ofuel → finditerGo nfa s F ofuel 0 ≠ .ok .fuelOut) := by
  constructor
  · intro ms h
    exact iterChain_chain ms 0 (finditerGo_chain ofuel 0 ms h)
  · intro hf
    exact finditerGo_no_fuelOut ofuel 0 (by omega) (by omega)

/-- Claim C7, witness: a concrete four-state NFA for a single-character
match under group 0, iterated over the input `"a"` — the completed yield
list satisfies the chain relation and the loop does not run out of fuel at
`len + 2`. -/
theorem finditer_contract_witness :
    List.Chain' chainRel [⟨[(0, ⟨0, some 1, some ['a']⟩)]⟩]
    ∧ finditerGo ⟨[[⟨.epsilonM, 2, some 0, none⟩], [],
          [⟨.character ['a'], 3, none, none⟩], [⟨.epsilonM, 1, none, some 0⟩]], 0, [1]⟩
        ['a'] 10 3 0 ≠ .ok .fuelOut :=
  ⟨(finditer_contract ⟨[[⟨.epsilonM, 2, some 0, none⟩], [],
          [⟨.character ['a'], 3, none, none⟩], [⟨.epsilonM, 1, none, some 0⟩]], 0, [1]⟩
      ['a'] 10 3).1 [⟨[(0, ⟨0, some 1, some ['a']⟩)]⟩] rfl,
   (finditer_contract ⟨[[⟨.epsilonM, 2, some 0, none⟩], [],
          [⟨.character ['a'], 3, none, none⟩], [⟨.epsilonM, 1, none, some 0⟩]], 0, [1]⟩
      ['a'] 10 3).2 (by decide)⟩

/-- Claim C8 (counterexample).  The claim states that every matcher variant
has `matches ⇒ position + consumed ≤ len(input)`, naming `Inverse` in
particular.  `InverseMatcher` matches at the end of the input (where its
inner matcher fails) yet consumes 1, making the new cursor exceed the input
length; and `Epsilon` matches even at an out-of-range position, where the
bound also fails. -/
theorem c8_inverse_bound_fails :
    (Matcher.inverse (.character ['a'])).matchAt [] 0 [] = .ok true
    ∧ (Matcher.inverse (.character ['a'])).numConsumed [] = .ok 1
    ∧ ¬ (0 + 1 ≤ ([] : List Char).length)
    ∧ Matcher.epsilonM.matchAt ['a'] 5 [] = .ok true
    ∧ Matcher.epsilonM.numConsumed [] = .ok 0
    ∧ ¬ (5 + 0 ≤ (['a'] : List Char).length) :=
  ⟨rfl, rfl, by decide, rfl, rfl, by decide⟩

/-- Claim C8 (amended and proved by `matcher_consumed_bound`), witness:
the character matcher for `"a"` at position 0 of input `"a"`. -/
theorem matcher_consumed_bound_witness :
    (Matcher.character ['a']).matchAt ['a'] 0 [] = .ok true
    ∧ 0 + 1 ≤ (['a'] : List Char).length :=
  ⟨rfl, matcher_consumed_bound (.character ['a']) ['a'] 0 [] 1 rfl (by decide) rfl rfl⟩

/-- Claim C9.  The parser's `-]` lookahead rule is exactly as claimed: the
first two conjuncts show `[]-]` parsed as literal `]` alternated with
literal `-`, and `[a-z]` parsed as a single `Range` — but that `Range`
receives the quote-wrapped `item()` strings, so, as with literals, nothing
can match: the claimed concrete scenario
`compile("(a+|b*c)[]-][a-z]+").match("c]aby{z")` (brace elided) returns no
match instead of `"c]aby"`. -/
theorem c9_set_scenario_no_match :
    parseRegex 50 "[]-]" = .ok (.group (.orN (.lit ']') (.lit '-')) 0)
    ∧ parseRegex 50 "[a-z]" =
        .ok (.group (.range [quoteChar, 'a', quoteChar] [quoteChar, 'z', quoteChar]) 0)
    ∧ runMatchO 100 600 "(a+|b*c)[]-][a-z]+" "c]aby\x7bz" = .ok .noMatch :=
  ⟨rfl, rfl, rfl⟩

/-- Claim C10 (counterexample).  The claim quantifies over every pattern
containing an unescaped `.`; but inside a character set `.` is an ordinary
literal, so `"[.]"` contains an unescaped dot yet parses to `Literal('.')`
and compiles successfully — no error is raised. -/
theorem c10_dot_in_set_compiles :
    eIsOk (compileRegex 50 "[.]") = true
    ∧ parseRegex 50 "[.]" = .ok (.group (.lit '.') 0) :=
  ⟨rfl, rfl⟩

/-- Claim C10 (amended): for every pattern whose parse succeeds with an AST
containing a `Dot` node (an unescaped `.` outside a character set),
constructing the `Regex` fails: the visitor has no `visit_dot` method, so
NFA construction always raises before any matching can occur. -/
theorem c10_dot_build_always_fails (fu : Nat) (p : String) (t : AST)
    (hp : parseRegex fu p = .ok t) (hd : astHasDot t = true) :
    eIsOk (compileRegex fu p) = false :=
  compileRegex_noVisit_fails fu p t hp (astHasDot_noVisit t hd)

/-- Claim C10 (amended), witness at the pattern `"a."`. -/
theorem c10_dot_build_always_fails_witness :
    eIsOk (compileRegex 50 "a.") = false :=
  c10_dot_build_always_fails 50 "a." (.group (.seq (.lit 'a') .dot) 0) rfl rfl

end RegexEngine
